import Mathlib

/-!
Shallow embedding of `gitgraph.py`, an ASCII git-commit-graph renderer.
Rail sequences are `List String` (one label per active branch column).
Fallible operations (Python assertions and runtime errors) return
`Except GitErr`.
-/

set_option autoImplicit false

namespace GitGraph

/-- Error kinds for the layout algorithms: `layoutInconsistency` models the
assertion failures signalling malformed input ordering, `unsupportedMergeArity`
the arity assertion of `ascii_merge`, `valueError` and `nameError` the
corresponding Python runtime errors. -/
inductive GitErr
  | layoutInconsistency
  | unsupportedMergeArity
  | valueError
  | nameError
deriving DecidableEq

/-- Repeat the string `s` exactly `n` times (Python `s * n`). -/
def srep (s : String) (n : Nat) : String :=
  String.join (List.replicate n s)

/-- Strip trailing whitespace from a string (Python `str.rstrip`). -/
def rstrip (s : String) : String :=
  String.mk ((s.data.reverse.dropWhile (fun c => c.isWhitespace)).reverse)

/-- Keep the first `n` characters of a string (Python `s[:n]`). -/
def strTake (n : Nat) (s : String) : String :=
  String.mk (s.data.take n)

/-- Index of the first element of the list satisfying `p`, if any. -/
def firstIdxP (p : String → Bool) : List String → Option Nat
  | [] => none
  | c :: cs => if p c then some 0 else (firstIdxP p cs).map (fun i => i + 1)

/-- Position of the first occurrence of `a` (Python `list.index`, with `none`
modelling the `ValueError` raised when `a` is absent). -/
def pyIndex (a : String) (l : List String) : Option Nat :=
  firstIdxP (fun c => decide (c = a)) l

/-- Loop of `merge(columns, parents, name)`: scans the columns left to right;
`pm` is `parents_merged` (parents already consumed), `nw` is `node_written`.
A rail whose label is a not-yet-consumed parent is consumed (replaced by
`name` the first time, dropped afterwards); every other rail is kept.
Returns the new columns together with the final `parents_merged`. -/
def mergeGo (parents : List String) (name : String) :
    List String → List String → Bool → List String × List String
  | [], pm, _ => ([], pm)
  | col :: rest, pm, nw =>
    if col ∈ parents then
      if col ∈ pm then
        let r := mergeGo parents name rest pm nw
        (col :: r.1, r.2)
      else
        let r := mergeGo parents name rest (pm ++ [col]) true
        if nw then r else (name :: r.1, r.2)
    else
      let r := mergeGo parents name rest pm nw
      (col :: r.1, r.2)

/-- Translation of `merge(columns, parents, name)`: removes one rail for each
of the commit's parents and writes the commit's own id in place of the first
parent rail.  The entry assertion `len(parents) > 0` and the final assertion
`sorted(parents) == sorted(parents_merged)` (modelled as a permutation test)
fail with `layoutInconsistency`. -/
def merge (columns parents : List String) (name : String) :
    Except GitErr (List String) :=
  if parents.length = 0 then Except.error GitErr.layoutInconsistency
  else
    let r := mergeGo parents name columns [] false
    if parents.Perm r.2 then Except.ok r.1
    else Except.error GitErr.layoutInconsistency

/-- Translation of `branch(columns, children, name)`: every rail equal to
`name` is replaced by `len(children)` consecutive copies of `name`. -/
def branch : List String → List String → String → List String
  | [], _, _ => []
  | c :: rest, children, name =>
    (if c = name then List.replicate children.length name else [c])
      ++ branch rest children name

/-- Specification-side form of `BranchExpander`, following the spec's words:
"every rail equal to the commit id is replaced by N consecutive copies of the
commit id, in place, preserving the order of all other rails" — stated for
every rail sequence, multiple occurrences of the id included.  Compared with
the source translation `branch` in the C2 theorem. -/
def branchSpec (columns children : List String) (name : String) :
    List String :=
  columns.flatMap (fun c =>
    if c = name then List.replicate children.length name else [c])

/-- Loop of `_ascii_split`: `i` is the current loop index, the second argument
the number of remaining iterations. -/
def asciiSplitGo (i : Nat) : Nat → List String
  | 0 => []
  | 1 => [srep "| " i ++ "|\\"]
  | n + 2 =>
    (srep "| " i ++ "|\\") :: (srep "| " (i + 1) ++ "\\")
      :: asciiSplitGo (i + 1) (n + 1)

/-- Translation of `_ascii_split(splits)`: the nested diagonal ladder drawn
when one rail fans out into `splits` rails. -/
def asciiSplit (splits : Nat) : List String :=
  asciiSplitGo 0 splits

/-- Run-length encoding by equal adjacent labels (Python
`[(k, len(list(v))) for k, v in groupby(l)]`). -/
def rle : List String → List (String × Nat)
  | [] => []
  | c :: rest =>
    match rle rest with
    | [] => [(c, 1)]
    | (k, n) :: t => if k = c then (c, n + 1) :: t else (c, 1) :: (k, n) :: t

/-- Scan of zipped run-length groups in `ascii_branch`: returns the index and
counts of the first group whose length grew, `none` when the zip is exhausted
without a difference, and an error when the groups mismatch. -/
def scanPairs : List (String × Nat) → List (String × Nat) → Nat →
    Except GitErr (Option (Nat × Nat × Nat))
  | [], _, _ => Except.ok none
  | _, [], _ => Except.ok none
  | (k, c1) :: s, (k2, c2) :: f, i =>
    if k = k2 then
      if c1 = c2 then scanPairs s f (i + 1)
      else if c1 < c2 then Except.ok (some (i, c1, c2))
      else Except.error GitErr.layoutInconsistency
    else Except.error GitErr.layoutInconsistency

/-- Translation of `ascii_branch(start, finish)`: connector art for an
expansion, built from run-length groups of the two rail sequences.  When the
group scan finds no grown group the Python code either returns an empty list
(some group was zipped, so the leaked loop variables satisfy `c2 - c1 = 0`) or
dies with a `NameError` (nothing was zipped). -/
def asciiBranch (start finish : List String) : Except GitErr (List String) :=
  if start.length < finish.length then
    if start.all (fun c => decide (c ∈ finish)) &&
       finish.all (fun c => decide (c ∈ start)) then
      match scanPairs (rle start) (rle finish) 0 with
      | Except.error e => Except.error e
      | Except.ok none =>
        match rle start, rle finish with
        | [], _ => Except.error GitErr.nameError
        | _, [] => Except.error GitErr.nameError
        | _, _ => Except.ok []
      | Except.ok (some (i, c1, c2)) =>
        let fg := rle finish
        let before := ((fg.take i).foldl (fun a kv => a + kv.2) 0) + (c2 - c1) - 1
        let after := (fg.drop (i + 1)).foldl (fun a kv => a + kv.2) 0
        Except.ok ((asciiSplit (c2 - c1)).map (fun line =>
          String.intercalate " "
            (List.replicate before "|" ++ [line] ++ List.replicate after "\\")))
    else Except.error GitErr.layoutInconsistency
  else Except.error GitErr.layoutInconsistency

/-- Translation of `_ascii_crossover(crosses)`: the four fixed-shape crossover
lines for a bridge over `crosses` rails. -/
def asciiCrossover (crosses : Nat) : List String :=
  ["| " ++ srep "| " crosses ++ " \\",
   "| " ++ srep "|_" crosses ++ "_/",
   "|/" ++ srep "| " crosses ++ "  ",
   "| " ++ srep "| " crosses ++ " "]

/-- Keys of `Counter(start) - Counter(finish)`: the labels occurring strictly
more often in `start` than in `finish` (each listed once). -/
def counterKeys (start finish : List String) : List String :=
  start.dedup.filter (fun k => decide (finish.count k < start.count k))

/-- Translation of `ascii_merge(start, finish)`: connector art for a two-way
merge.  The arity assertion fails with `unsupportedMergeArity`; the tuple
unpacking of the counter difference and the `list.index` calls fail with
`valueError`; the `dest == start.index(merged)` assertion fails with
`layoutInconsistency`. -/
def asciiMerge (start finish : List String) : Except GitErr (List String) :=
  if start.length = finish.length + 1 then
    match counterKeys start finish with
    | [merged] =>
      match pyIndex merged finish with
      | none => Except.error GitErr.valueError
      | some dest =>
        match pyIndex merged start with
        | none => Except.error GitErr.valueError
        | some s =>
          if dest = s then
            match pyIndex merged (start.drop (dest + 1)) with
            | none => Except.error GitErr.valueError
            | some j =>
              let origin := dest + j + 1
              let after := start.length - origin - 1
              match asciiCrossover (origin - dest - 1) with
              | [l0, l1, l2, l3] =>
                Except.ok
                  [rstrip (srep "| " dest ++ l0 ++ srep " \\" after),
                   rstrip (srep "| " dest ++ l1 ++ srep " /" after),
                   rstrip (srep "| " dest ++ l2 ++ srep "/ " after),
                   rstrip (srep "| " dest ++ l3 ++ srep "/ " after)]
              | _ => Except.error GitErr.valueError
          else Except.error GitErr.layoutInconsistency
    | _ => Except.error GitErr.valueError
  else Except.error GitErr.unsupportedMergeArity

/-- Translation of `format_line(name, columns, msg)`: one marker or connector
glyph per rail, the commit id, the optional message, truncated to 80 columns.
An empty message is falsy in Python and is treated like a missing one. -/
def formatLine (name : String) (columns : List String) (msg : Option String) :
    String :=
  strTake 80
    (String.intercalate " "
        (columns.map (fun x => if x = name then "o" else "|"))
      ++ "   " ++ name
      ++ (match msg with
          | some m => if m = "" then "" else " " ++ m
          | none => ""))

/-- Append `parent` to the entry of `child` in an association map, creating the
entry if absent (the dictionary update inside `reversed`). -/
def updateAdd : List (String × List String) → String → String →
    List (String × List String)
  | [], child, parent => [(child, [parent])]
  | (k, v) :: rest, child, parent =>
    if k = child then (k, v ++ [parent]) :: rest
    else (k, v) :: updateAdd rest child parent

/-- Translation of `reversed(d)`: invert a child-adjacency map into a
parent-adjacency map. -/
def revAdj (d : List (String × List String)) : List (String × List String) :=
  d.foldl (fun rev kv => kv.2.foldl (fun r child => updateAdd r child kv.1) rev) []

/-- Translation of `parents(node, children)`: the parent list of `node` under
the child-adjacency map `children` (empty when `node` has no entry). -/
def parentsOf (node : String) (children : List (String × List String)) :
    List String :=
  ((revAdj children).lookup node).getD []

/-- Python `children.get(commit, [])`. -/
def childLookup (children : List (String × List String)) (commit : String) :
    List String :=
  (children.lookup commit).getD []

/-- Python `messages.get(commit)`. -/
def msgLookup (messages : List (String × String)) (commit : String) :
    Option String :=
  messages.lookup commit

/-- Merge-resolution step of `print_row`: a root commit appends its id as a new
rail, any other commit merges its parent rails. -/
def mergeResolve (columns ps : List String) (name : String) :
    Except GitErr (List String) :=
  if ps.length = 0 then Except.ok (columns ++ [name])
  else merge columns ps name

/-- Loop building `pre_merge` in `print_row`: the first rail of each distinct
parent is replaced by the sentinel label `to_merge`. -/
def preMergeGo (ps : List String) : List String → List String → List String
  | [], _ => []
  | c :: rest, pm =>
    if c ∈ ps ∧ c ∉ pm then "to_merge" :: preMergeGo ps rest (pm ++ [c])
    else c :: preMergeGo ps rest pm

/-- The `pre_merge` sequence of `print_row`. -/
def preMerge (ps columns : List String) : List String :=
  preMergeGo ps columns []

/-- The `post_merge` sequence of `print_row`: rails of the merged sequence that
did not occur among the old columns are replaced by the sentinel `to_merge`. -/
def postMerge (columns new : List String) : List String :=
  new.map (fun c => if c ∈ columns then c else "to_merge")

/-- Translation of `print_row(commit, children, columns, msg)`.  Returns the
lines printed (in order, including those printed before a failure) together
with either the new rail sequence or the error that aborted the row. -/
def printRow (commit : String) (children : List (String × List String))
    (columns : Option (List String)) (msg : Option String) :
    List String × Except GitErr (List String) :=
  match columns with
  | none => ([formatLine commit [commit] msg], Except.ok [commit])
  | some cols =>
    let ps := parentsOf commit children
    match mergeResolve cols ps commit with
    | Except.error e => ([], Except.error e)
    | Except.ok new =>
      match (if 1 < ps.length then asciiMerge (preMerge ps cols) (postMerge cols new)
             else Except.ok []) with
      | Except.error e => ([], Except.error e)
      | Except.ok art =>
        let cs := childLookup children commit
        let newer := branch new cs commit
        if 1 < cs.length then
          match asciiBranch new newer with
          | Except.error e => (art ++ [formatLine commit new msg], Except.error e)
          | Except.ok art2 =>
            (art ++ formatLine commit new msg :: art2, Except.ok newer)
        else (art ++ [formatLine commit new msg], Except.ok newer)

/-- Loop of `print_lines` over the commits after the first, threading the rail
sequence. -/
def printLinesGo (children : List (String × List String))
    (messages : List (String × String)) :
    List String → List String → List String × Except GitErr Unit
  | _, [] => ([], Except.ok ())
  | cols, c :: rest =>
    let r := printRow c children (some cols) (msgLookup messages c)
    match r.2 with
    | Except.error e => (r.1, Except.error e)
    | Except.ok cols2 =>
      let r2 := printLinesGo children messages cols2 rest
      (r.1 ++ r2.1, r2.2)

/-- Translation of `print_lines(commits, children, messages)`: the first commit
seeds the rail state, the rest are rendered row by row.  An empty commit list
raises an `IndexError`, modelled as `valueError`. -/
def printLines (commits : List String)
    (children : List (String × List String))
    (messages : List (String × String)) :
    List String × Except GitErr Unit :=
  match commits with
  | [] => ([], Except.error GitErr.valueError)
  | c :: rest =>
    let first := printRow c children none (msgLookup messages c)
    match first.2 with
    | Except.error e => (first.1, Except.error e)
    | Except.ok cols =>
      let r2 := printLinesGo children messages cols rest
      (first.1 ++ r2.1, r2.2)

/-! ### Reference forms of the merge scan, used in the proofs -/

/-- State-free form of the merge scan after the commit id has been written:
drop the first occurrence of each label of `remaining`, keep everything else
(later duplicates included) in order. -/
def consume : List String → List String → List String
  | [], _ => []
  | c :: cs, remaining =>
    if c ∈ remaining then consume cs (remaining.erase c)
    else c :: consume cs remaining

/-- Labels consumed by the merge scan, in scan order (the final
`parents_merged` list). -/
def consumedSeq : List String → List String → List String
  | [], _ => []
  | c :: cs, remaining =>
    if c ∈ remaining then c :: consumedSeq cs (remaining.erase c)
    else consumedSeq cs remaining

/-- State-free form of the whole merge scan: the first rail holding a label of
`remaining` is replaced by `name`, later first occurrences of the other labels
of `remaining` are dropped, everything else is kept in order. -/
def mergeSimpleR (name : String) : List String → List String → List String
  | [], _ => []
  | c :: cs, remaining =>
    if c ∈ remaining then name :: consume cs (remaining.erase c)
    else c :: mergeSimpleR name cs remaining

theorem mergeGo_written (parents : List String) (name : String) :
    ∀ (columns pm remaining : List String), remaining.Nodup →
      (∀ c, c ∈ remaining ↔ (c ∈ parents ∧ c ∉ pm)) →
      mergeGo parents name columns pm true
        = (consume columns remaining, pm ++ consumedSeq columns remaining)
  | [], pm, remaining, _, _ => by
      simp [mergeGo, consume, consumedSeq]
  | col :: rest, pm, remaining, hnd, hiff => by
    by_cases hp : col ∈ parents
    · by_cases hpm : col ∈ pm
      · have hnr : col ∉ remaining := fun h => ((hiff col).mp h).2 hpm
        have ih := mergeGo_written parents name rest pm remaining hnd hiff
        simp [mergeGo, consume, consumedSeq, hp, hpm, hnr, ih]
      · have hr : col ∈ remaining := (hiff col).mpr ⟨hp, hpm⟩
        have hnd2 : (remaining.erase col).Nodup := hnd.erase col
        have hiff2 : ∀ c, c ∈ remaining.erase col ↔
            (c ∈ parents ∧ c ∉ pm ++ [col]) := by
          intro c
          rw [hnd.mem_erase_iff, hiff c]
          simp only [List.mem_append, List.mem_singleton]
          tauto
        have ih := mergeGo_written parents name rest (pm ++ [col])
          (remaining.erase col) hnd2 hiff2
        simp [mergeGo, consume, consumedSeq, hp, hpm, hr, ih]
    · have hnr : col ∉ remaining := fun h => hp ((hiff col).mp h).1
      have ih := mergeGo_written parents name rest pm remaining hnd hiff
      simp [mergeGo, consume, consumedSeq, hp, hnr, ih]

theorem mergeGo_start (parents : List String) (name : String) :
    ∀ (columns : List String), parents.Nodup →
      mergeGo parents name columns [] false
        = (mergeSimpleR name columns parents, consumedSeq columns parents)
  | [], _ => by simp [mergeGo, mergeSimpleR, consumedSeq]
  | col :: rest, hnd => by
    by_cases hp : col ∈ parents
    · have hnd2 : (parents.erase col).Nodup := hnd.erase col
      have hiff2 : ∀ c, c ∈ parents.erase col ↔
          (c ∈ parents ∧ c ∉ ([col] : List String)) := by
        intro c
        rw [hnd.mem_erase_iff]
        simp only [List.mem_singleton]
        tauto
      have hw := mergeGo_written parents name rest [col]
        (parents.erase col) hnd2 hiff2
      simp [mergeGo, mergeSimpleR, consumedSeq, hp, hw]
    · have ih := mergeGo_start parents name rest hnd
      simp [mergeGo, mergeSimpleR, consumedSeq, hp, ih]

/-- Evaluation of `merge` through the state-free reference form. -/
theorem merge_eq_reference (columns parents : List String) (name : String)
    (hnd : parents.Nodup) (hne : parents ≠ []) :
    merge columns parents name =
      if parents.Perm (consumedSeq columns parents) then
        Except.ok (mergeSimpleR name columns parents)
      else Except.error GitErr.layoutInconsistency := by
  unfold merge
  rw [if_neg (fun h => hne (List.length_eq_zero.mp h)),
    mergeGo_start parents name columns hnd]

theorem mem_consumedSeq :
    ∀ (cs remaining : List String), remaining.Nodup →
      ∀ x, x ∈ consumedSeq cs remaining ↔ (x ∈ remaining ∧ x ∈ cs)
  | [], remaining, _, x => by simp [consumedSeq]
  | c :: cs, remaining, hnd, x => by
    by_cases hc : c ∈ remaining
    · have ih := mem_consumedSeq cs (remaining.erase c) (hnd.erase c) x
      simp only [consumedSeq, if_pos hc, List.mem_cons, ih,
        hnd.mem_erase_iff]
      constructor
      · rintro (rfl | ⟨⟨_, hxr⟩, hxcs⟩)
        · exact ⟨hc, Or.inl rfl⟩
        · exact ⟨hxr, Or.inr hxcs⟩
      · rintro ⟨hxr, hxc | hxcs⟩
        · exact Or.inl hxc
        · by_cases hxe : x = c
          · exact Or.inl hxe
          · exact Or.inr ⟨⟨hxe, hxr⟩, hxcs⟩
    · have ih := mem_consumedSeq cs remaining hnd x
      simp only [consumedSeq, if_neg hc, ih, List.mem_cons]
      constructor
      · rintro ⟨hxr, hxcs⟩; exact ⟨hxr, Or.inr hxcs⟩
      · rintro ⟨hxr, rfl | hxcs⟩
        · exact absurd hxr hc
        · exact ⟨hxr, hxcs⟩

theorem consumedSeq_nodup :
    ∀ (cs remaining : List String), remaining.Nodup →
      (consumedSeq cs remaining).Nodup
  | [], _, _ => by simp [consumedSeq]
  | c :: cs, remaining, hnd => by
    by_cases hc : c ∈ remaining
    · have ih := consumedSeq_nodup cs (remaining.erase c) (hnd.erase c)
      have hcn : c ∉ consumedSeq cs (remaining.erase c) := fun h => by
        have := ((mem_consumedSeq cs (remaining.erase c) (hnd.erase c) c).mp h).1
        exact ((hnd.mem_erase_iff).mp this).1 rfl
      simp [consumedSeq, hc, ih, hcn]
    · have ih := consumedSeq_nodup cs remaining hnd
      simp [consumedSeq, hc, ih]

theorem consume_length :
    ∀ (cs remaining : List String),
      (consume cs remaining).length + (consumedSeq cs remaining).length
        = cs.length
  | [], _ => by simp [consume, consumedSeq]
  | c :: cs, remaining => by
    by_cases hc : c ∈ remaining
    · have ih := consume_length cs (remaining.erase c)
      simp only [consume, consumedSeq, if_pos hc, List.length_cons]
      omega
    · have ih := consume_length cs remaining
      simp only [consume, consumedSeq, if_neg hc, List.length_cons]
      omega

/-- The final permutation assertion of `merge` holds exactly when every parent
occurs among the columns. -/
theorem consumedSeq_perm_iff (cs parents : List String)
    (hnd : parents.Nodup) :
    parents.Perm (consumedSeq cs parents) ↔ ∀ p ∈ parents, p ∈ cs := by
  rw [List.perm_ext_iff_of_nodup hnd (consumedSeq_nodup cs parents hnd)]
  constructor
  · intro h p hp
    exact ((mem_consumedSeq cs parents hnd p).mp ((h p).mp hp)).2
  · intro h a
    rw [mem_consumedSeq cs parents hnd a]
    exact ⟨fun ha => ⟨ha, h a ha⟩, fun ha => ha.1⟩

theorem mergeSimpleR_length (name : String) :
    ∀ (cs remaining : List String), (∃ c ∈ cs, c ∈ remaining) →
      (mergeSimpleR name cs remaining).length
          + (consumedSeq cs remaining).length
        = cs.length + 1
  | [], _, hhit => by simp at hhit
  | c :: cs, remaining, hhit => by
    by_cases hc : c ∈ remaining
    · have hl := consume_length cs (remaining.erase c)
      simp only [mergeSimpleR, consumedSeq, if_pos hc, List.length_cons]
      omega
    · have hhit2 : ∃ x ∈ cs, x ∈ remaining := by
        obtain ⟨x, hx, hxr⟩ := hhit
        rcases List.mem_cons.mp hx with rfl | hxcs
        · exact absurd hxr hc
        · exact ⟨x, hxcs, hxr⟩
      have ih := mergeSimpleR_length name cs remaining hhit2
      simp only [mergeSimpleR, consumedSeq, if_neg hc, List.length_cons]
      omega

theorem count_consume_zero (name : String) :
    ∀ (cs remaining : List String), name ∉ cs →
      (consume cs remaining).count name = 0
  | [], _, _ => by simp [consume]
  | c :: cs, remaining, hname => by
    have hcn : ¬ c = name := fun h =>
      hname (h ▸ List.mem_cons_self c cs)
    have hns : name ∉ cs := fun h => hname (List.mem_cons_of_mem c h)
    by_cases hc : c ∈ remaining
    · simpa [consume, hc] using count_consume_zero name cs (remaining.erase c) hns
    · simp [consume, hc, List.count_cons, hcn,
        count_consume_zero name cs remaining hns]

theorem mergeSimpleR_count (name : String) :
    ∀ (cs remaining : List String), name ∉ cs → (∃ c ∈ cs, c ∈ remaining) →
      (mergeSimpleR name cs remaining).count name = 1
  | [], _, _, hhit => by simp at hhit
  | c :: cs, remaining, hname, hhit => by
    have hns : name ∉ cs := fun h => hname (List.mem_cons_of_mem c h)
    by_cases hc : c ∈ remaining
    · simp [mergeSimpleR, hc, List.count_cons,
        count_consume_zero name cs (remaining.erase c) hns]
    · have hcn : ¬ c = name := fun h =>
        hname (h ▸ List.mem_cons_self c cs)
      have hhit2 : ∃ x ∈ cs, x ∈ remaining := by
        obtain ⟨x, hx, hxr⟩ := hhit
        rcases List.mem_cons.mp hx with rfl | hxcs
        · exact absurd hxr hc
        · exact ⟨x, hxcs, hxr⟩
      simp [mergeSimpleR, hc, List.count_cons, hcn,
        mergeSimpleR_count name cs remaining hns hhit2]

theorem mergeSimpleR_index (name : String) :
    ∀ (cs remaining : List String), name ∉ cs →
      pyIndex name (mergeSimpleR name cs remaining)
        = firstIdxP (fun c => decide (c ∈ remaining)) cs
  | [], _, _ => rfl
  | c :: cs, remaining, hname => by
    have hns : name ∉ cs := fun h => hname (List.mem_cons_of_mem c h)
    by_cases hc : c ∈ remaining
    · simp [mergeSimpleR, pyIndex, firstIdxP, hc]
    · have hcn : ¬ c = name := fun h =>
        hname (h ▸ List.mem_cons_self c cs)
      have ih := mergeSimpleR_index name cs remaining hns
      simp only [pyIndex] at ih
      simp [mergeSimpleR, pyIndex, firstIdxP, hc, hcn]
      rw [ih]

theorem mergeSimpleR_erase (name : String) :
    ∀ (cs remaining : List String), name ∉ cs →
      (mergeSimpleR name cs remaining).erase name = consume cs remaining
  | [], _, _ => rfl
  | c :: cs, remaining, hname => by
    have hns : name ∉ cs := fun h => hname (List.mem_cons_of_mem c h)
    by_cases hc : c ∈ remaining
    · simp [mergeSimpleR, consume, hc, List.erase_cons_head]
    · have hcn : ¬ c = name := fun h =>
        hname (h ▸ List.mem_cons_self c cs)
      have ih := mergeSimpleR_erase name cs remaining hns
      have hct : (c :: mergeSimpleR name cs remaining).erase name
          = c :: (mergeSimpleR name cs remaining).erase name :=
        List.erase_cons_tail (by simp [hcn])
      simp [mergeSimpleR, consume, hc, hct, ih]

theorem consume_nil_right : ∀ cs : List String, consume cs [] = cs
  | [] => rfl
  | c :: cs => by simp [consume, consume_nil_right cs]

theorem consume_erase_comm :
    ∀ (cs remaining : List String) (p : String), p ∉ remaining →
      consume cs (p :: remaining) = consume (cs.erase p) remaining
  | [], remaining, p, _ => by simp [consume]
  | c :: cs, remaining, p, hp => by
    by_cases hcp : c = p
    · subst hcp
      simp [consume, List.erase_cons_head]
    · by_cases hcr : c ∈ remaining
      · have hpe : p ∉ remaining.erase c := fun h =>
          hp (List.mem_of_mem_erase h)
        have ih := consume_erase_comm cs (remaining.erase c) p hpe
        have h1 : (p :: remaining).erase c = p :: remaining.erase c :=
          List.erase_cons_tail (by simpa using fun h => hcp h.symm)
        have h2 : (c :: cs).erase p = c :: cs.erase p :=
          List.erase_cons_tail (by simpa using hcp)
        simp [consume, List.mem_cons, hcp, hcr, h1, h2, ih]
      · have hcm : c ∉ p :: remaining := by
          simp [List.mem_cons, hcp, hcr]
        have h2 : (c :: cs).erase p = c :: cs.erase p :=
          List.erase_cons_tail (by simpa using hcp)
        have ih := consume_erase_comm cs remaining p hp
        simp [consume, hcm, hcr, h2, ih]

theorem consume_eq_foldl_erase :
    ∀ (remaining cs : List String), remaining.Nodup →
      consume cs remaining
        = remaining.foldl (fun l p => l.erase p) cs
  | [], cs, _ => by simpa using consume_nil_right cs
  | p :: remaining, cs, hnd => by
    have hp : p ∉ remaining := (List.nodup_cons.mp hnd).1
    have ih := consume_eq_foldl_erase remaining (cs.erase p)
      (List.nodup_cons.mp hnd).2
    simp [List.foldl_cons, consume_erase_comm cs remaining p hp, ih]

theorem filter_consume (q : String → Bool) :
    ∀ (cs remaining : List String), (∀ x ∈ remaining, q x = false) →
      (consume cs remaining).filter q = cs.filter q
  | [], _, _ => rfl
  | c :: cs, remaining, hq => by
    by_cases hc : c ∈ remaining
    · have hq2 : ∀ x ∈ remaining.erase c, q x = false := fun x hx =>
        hq x (List.mem_of_mem_erase hx)
      have ih := filter_consume q cs (remaining.erase c) hq2
      simp [consume, hc, ih, List.filter_cons, hq c hc]
    · have ih := filter_consume q cs remaining hq
      simp [consume, hc, List.filter_cons, ih]

theorem filter_mergeSimpleR (q : String → Bool) (name : String)
    (hqn : q name = false) :
    ∀ (cs remaining : List String), (∀ x ∈ remaining, q x = false) →
      (mergeSimpleR name cs remaining).filter q = cs.filter q
  | [], _, _ => rfl
  | c :: cs, remaining, hq => by
    by_cases hc : c ∈ remaining
    · have hq2 : ∀ x ∈ remaining.erase c, q x = false := fun x hx =>
        hq x (List.mem_of_mem_erase hx)
      simp [mergeSimpleR, hc, List.filter_cons, hqn, hq c hc,
        filter_consume q cs (remaining.erase c) hq2]
    · have ih := filter_mergeSimpleR q name hqn cs remaining hq
      simp [mergeSimpleR, hc, List.filter_cons, ih]

/-! ### Lemmas about `branch` -/

theorem filter_branch (children : List String) (name : String) :
    ∀ cols : List String,
      (branch cols children name).filter (fun c => decide (c ≠ name))
        = cols.filter (fun c => decide (c ≠ name))
  | [] => rfl
  | c :: cols => by
    have ih := filter_branch children name cols
    by_cases hc : c = name
    · subst hc
      have hrep : (List.replicate children.length c).filter
          (fun x => decide (x ≠ c)) = [] := by
        refine List.filter_eq_nil_iff.mpr fun a ha => ?_
        simp [List.eq_of_mem_replicate ha]
      rw [show branch (c :: cols) children c
          = List.replicate children.length c ++ branch cols children c by
            simp [branch]]
      rw [List.filter_append, hrep, List.nil_append, ih, List.filter_cons]
      simp
    · rw [show branch (c :: cols) children name
          = [c] ++ branch cols children name by simp [branch, hc]]
      rw [List.filter_append, ih]
      simp [List.filter_cons, hc]

theorem branch_not_mem (children : List String) (name : String) :
    ∀ cols : List String, name ∉ cols → branch cols children name = cols
  | [], _ => rfl
  | c :: cols, h => by
    have hcn : ¬ c = name := fun hh =>
      h (hh ▸ List.mem_cons_self c cols)
    have ih := branch_not_mem children name cols
      (fun hh => h (List.mem_cons_of_mem c hh))
    simp [branch, hcn, ih]

theorem branch_append (children : List String) (name : String) :
    ∀ l1 l2 : List String,
      branch (l1 ++ l2) children name
        = branch l1 children name ++ branch l2 children name
  | [], l2 => rfl
  | c :: l1, l2 => by
    simp [branch, branch_append children name l1 l2]

/-! ### Claim theorems: merge and branch -/

/-- C5: `merge` fails with `LayoutInconsistency` exactly when some parent id
occurs nowhere among the rails, and succeeds otherwise. -/
theorem merge_error_iff_missing_parent (columns parents : List String)
    (name : String) (hne : parents ≠ []) (hnd : parents.Nodup) :
    (merge columns parents name = Except.error GitErr.layoutInconsistency ↔
      ∃ p ∈ parents, p ∉ columns) ∧
    ((∀ p ∈ parents, p ∈ columns) →
      ∃ new, merge columns parents name = Except.ok new) := by
  rw [merge_eq_reference columns parents name hnd hne]
  have hiff := consumedSeq_perm_iff columns parents hnd
  by_cases hall : ∀ p ∈ parents, p ∈ columns
  · rw [if_pos (hiff.mpr hall)]
    constructor
    · constructor
      · intro h; cases h
      · rintro ⟨p, hp, hpc⟩; exact absurd (hall p hp) hpc
    · intro _; exact ⟨_, rfl⟩
  · rw [if_neg (fun h => hall (hiff.mp h))]
    push_neg at hall
    constructor
    · exact ⟨fun _ => hall, fun _ => rfl⟩
    · intro h
      obtain ⟨p, hp, hpc⟩ := hall
      exact absurd (h p hp) hpc

/-- C5 witness: concrete instance of `merge_error_iff_missing_parent`. -/
theorem merge_error_iff_missing_parent_witness :
    (merge ["a", "b"] ["a"] "m" = Except.error GitErr.layoutInconsistency ↔
      ∃ p ∈ (["a"] : List String), p ∉ (["a", "b"] : List String)) ∧
    ((∀ p ∈ (["a"] : List String), p ∈ (["a", "b"] : List String)) →
      ∃ new, merge ["a", "b"] ["a"] "m" = Except.ok new) :=
  merge_error_iff_missing_parent ["a", "b"] ["a"] "m" (by decide) (by decide)

/-- C1 counterexample: when the commit id already labels a rail, the result
does not bear the commit id on exactly one rail — `merge ["n","p"] ["p"] "n"`
returns `["n","n"]`. -/
theorem merge_duplicate_name_cex :
    merge ["n", "p"] ["p"] "n" = Except.ok ["n", "n"] ∧
    (["n", "n"] : List String).count "n" ≠ 1 := by
  exact ⟨rfl, by decide⟩

/-- C1 (amended: additionally requires that the commit id does not already
label a rail): under distinct parents all present among the rails, `merge`
succeeds, consumes the leftmost occurrence of each parent, bears the commit id
on exactly one rail — at the position of the leftmost rail holding any parent
id — keeps every other rail (later duplicates of consumed parents included) in
order, and shortens the sequence to `len(columns) - len(parents) + 1`. -/
theorem merge_resolves_parents (columns parents : List String) (name : String)
    (hne : parents ≠ []) (hnd : parents.Nodup)
    (hall : ∀ p ∈ parents, p ∈ columns) (hname : name ∉ columns) :
    ∃ new, merge columns parents name = Except.ok new ∧
      new.length = columns.length - parents.length + 1 ∧
      new.count name = 1 ∧
      pyIndex name new = firstIdxP (fun c => decide (c ∈ parents)) columns ∧
      new.erase name = parents.foldl (fun cs p => cs.erase p) columns := by
  have hperm := (consumedSeq_perm_iff columns parents hnd).mpr hall
  have hhit : ∃ c ∈ columns, c ∈ parents := by
    obtain ⟨p, hp⟩ := List.exists_mem_of_ne_nil parents hne
    exact ⟨p, hall p hp, hp⟩
  have hlen := mergeSimpleR_length name columns parents hhit
  have hple : parents.length ≤ columns.length :=
    (hnd.subperm (fun p hp => hall p hp)).length_le
  have hclen := hperm.length_eq
  rw [merge_eq_reference columns parents name hnd hne, if_pos hperm]
  refine ⟨mergeSimpleR name columns parents, rfl, by omega,
    mergeSimpleR_count name columns parents hname hhit,
    mergeSimpleR_index name columns parents hname, ?_⟩
  rw [mergeSimpleR_erase name columns parents hname]
  exact consume_eq_foldl_erase parents columns hnd

/-- C1 witness: concrete instance of `merge_resolves_parents`. -/
theorem merge_resolves_parents_witness :
    ∃ new, merge ["p", "x", "q", "p"] ["p", "q"] "m" = Except.ok new ∧
      new.length = (["p", "x", "q", "p"] : List String).length
          - (["p", "q"] : List String).length + 1 ∧
      new.count "m" = 1 ∧
      pyIndex "m" new
        = firstIdxP (fun c => decide (c ∈ (["p", "q"] : List String)))
            ["p", "x", "q", "p"] ∧
      new.erase "m"
        = (["p", "q"] : List String).foldl (fun cs p => cs.erase p)
            ["p", "x", "q", "p"] :=
  merge_resolves_parents ["p", "x", "q", "p"] ["p", "q"] "m"
    (by decide) (by decide) (by decide) (by decide)

/-- C4 counterexample: merge does not preserve the multiset of rail labels
different from the commit id — the consumed parent label disappears:
`merge ["p"] ["p"] "n" = ok ["n"]`. -/
theorem merge_foreign_multiset_cex :
    merge ["p"] ["p"] "n" = Except.ok ["n"] ∧
    ¬ ((["n"] : List String).filter (fun c => decide (c ≠ "n"))).Perm
        ((["p"] : List String).filter (fun c => decide (c ≠ "n"))) := by
  exact ⟨rfl, by decide⟩

/-- C4 (amended: for merge resolution the preserved labels are those that are
neither the commit id nor one of its parents; for branch expansion the labels
different from the commit id are preserved — in both cases even as a
subsequence, hence as a multiset). -/
theorem merge_branch_foreign_labels (columns parents : List String)
    (name : String) (children : List String) (new : List String)
    (hnd : parents.Nodup) (hne : parents ≠ [])
    (h : merge columns parents name = Except.ok new) :
    new.filter (fun c => decide (c ∉ parents ∧ c ≠ name))
      = columns.filter (fun c => decide (c ∉ parents ∧ c ≠ name)) ∧
    (branch columns children name).filter (fun c => decide (c ≠ name))
      = columns.filter (fun c => decide (c ≠ name)) := by
  refine ⟨?_, filter_branch children name columns⟩
  rw [merge_eq_reference columns parents name hnd hne] at h
  by_cases hperm : parents.Perm (consumedSeq columns parents)
  · rw [if_pos hperm] at h
    cases h
    refine filter_mergeSimpleR _ name (by simp) columns parents
      (fun x hx => by simp [hx])
  · rw [if_neg hperm] at h
    cases h

/-- C4 witness: concrete instance of `merge_branch_foreign_labels`. -/
theorem merge_branch_foreign_labels_witness :
    (["a", "m"] : List String).filter
        (fun c => decide (c ∉ (["p"] : List String) ∧ c ≠ "m"))
      = (["a", "p"] : List String).filter
          (fun c => decide (c ∉ (["p"] : List String) ∧ c ≠ "m")) ∧
    (branch ["a", "p"] ["x", "y"] "m").filter (fun c => decide (c ≠ "m"))
      = (["a", "p"] : List String).filter (fun c => decide (c ≠ "m")) :=
  merge_branch_foreign_labels ["a", "p"] ["p"] "m" ["x", "y"] ["a", "m"]
    (by decide) (by decide) rfl

/-- For every rail sequence the source translation `branch` agrees with the
spec-side per-rail replacement `branchSpec`. -/
theorem branch_eq_spec (children : List String) (name : String) :
    ∀ cols : List String,
      branch cols children name = branchSpec cols children name
  | [] => rfl
  | c :: cols => by
    have ih := branch_eq_spec children name cols
    simp only [branchSpec] at ih
    simp only [branch, branchSpec, List.flatMap_cons, ih]

/-- C2: `branch` replaces every rail equal to the commit id by `N` consecutive
copies in place — proved for every rail sequence, multiple occurrences of the
id included, via the spec-side `branchSpec` — keeps all other rails in order,
and (with exactly one such rail) lengthens the sequence to
`len(columns) - 1 + N`. -/
theorem branch_expands (children : List String) (name : String)
    (pre post : List String) (_hN : 1 ≤ children.length)
    (hpre : name ∉ pre) (hpost : name ∉ post) :
    (∀ cols : List String,
        branch cols children name = branchSpec cols children name) ∧
    branch (pre ++ name :: post) children name
      = pre ++ List.replicate children.length name ++ post ∧
    (branch (pre ++ name :: post) children name).length
      = (pre ++ name :: post).length - 1 + children.length ∧
    ∀ cols : List String,
      (branch cols children name).filter (fun c => decide (c ≠ name))
        = cols.filter (fun c => decide (c ≠ name)) := by
  have heq : branch (pre ++ name :: post) children name
      = pre ++ List.replicate children.length name ++ post := by
    rw [branch_append children name pre (name :: post),
      branch_not_mem children name pre hpre]
    simp [branch, branch_not_mem children name post hpost]
  refine ⟨branch_eq_spec children name, heq, ?_, filter_branch children name⟩
  rw [heq]
  simp only [List.length_append, List.length_replicate, List.length_cons]
  omega

/-- C2 witness: concrete instance of `branch_expands`. -/
theorem branch_expands_witness :
    (∀ cols : List String,
        branch cols ["x", "y"] "m" = branchSpec cols ["x", "y"] "m") ∧
    branch (["a"] ++ "m" :: ["b"]) ["x", "y"] "m"
      = ["a"] ++ List.replicate (["x", "y"] : List String).length "m" ++ ["b"] ∧
    (branch (["a"] ++ "m" :: ["b"]) ["x", "y"] "m").length
      = ((["a"] : List String) ++ "m" :: ["b"]).length - 1
          + (["x", "y"] : List String).length ∧
    ∀ cols : List String,
      (branch cols ["x", "y"] "m").filter (fun c => decide (c ≠ "m"))
        = cols.filter (fun c => decide (c ≠ "m")) :=
  branch_expands ["x", "y"] "m" ["a"] ["b"] (by decide) (by decide) (by decide)

/-- C8 counterexample: for a tip commit (no children) `branch` does not return
the columns unchanged — the commit's rail is removed at once:
`branch ["n","x"] [] "n" = ["x"]`. -/
theorem branch_tip_cex :
    branch ["n", "x"] [] "n" = ["x"] ∧
    branch ["n", "x"] [] "n" ≠ ["n", "x"] := by
  exact ⟨rfl, by decide⟩

/-- C8 (amended): for a tip commit (child list of length 0), `branch` removes
every rail equal to the commit id — the rail disappears immediately at the
expansion step — and keeps all other rails unchanged in order. -/
theorem branch_tip_removes_rail :
    ∀ (columns : List String) (name : String),
      branch columns [] name = columns.filter (fun c => decide (c ≠ name))
  | [], _ => rfl
  | c :: cols, name => by
    have ih := branch_tip_removes_rail cols name
    by_cases hc : c = name
    · subst hc
      simp [branch, List.filter_cons, ih]
    · simp [branch, List.filter_cons, hc, ih]

/-! ### Claim theorems: connector art -/

theorem asciiSplitGo_spec :
    ∀ (n i : Nat), 1 ≤ n →
      (asciiSplitGo i n).length = 2 * n - 1 ∧
      (asciiSplitGo i n).getLast? = some (srep "| " (i + n - 1) ++ "|\\")
  | 0, _, h => by omega
  | 1, i, _ => by simp [asciiSplitGo]
  | m + 2, i, _ => by
    obtain ⟨ihlen, ihlast⟩ := asciiSplitGo_spec (m + 1) (i + 1) (by omega)
    constructor
    · simp only [asciiSplitGo, List.length_cons]
      omega
    · rcases htail : asciiSplitGo (i + 1) (m + 1) with _ | ⟨t, ts⟩
      · rw [htail] at ihlen
        simp at ihlen
        omega
      · rw [htail] at ihlast
        have harith : i + 1 + (m + 1) - 1 = i + (m + 2) - 1 := by omega
        rw [harith] at ihlast
        show ((srep "| " i ++ "|\\") :: (srep "| " (i + 1) ++ "\\")
            :: asciiSplitGo (i + 1) (m + 1)).getLast? = _
        rw [htail, List.getLast?_cons_cons, List.getLast?_cons_cons]
        exact ihlast

/-- C10: `_ascii_split(k)` produces exactly `2k - 1` lines, the last of which
is `k - 1` straight-rail prefixes (`"| "`) followed by the branch-opening
glyph pair `"|\"`. -/
theorem ascii_split_lines (k : Nat) (hk : 1 ≤ k) :
    (asciiSplit k).length = 2 * k - 1 ∧
    (asciiSplit k).getLast? = some (srep "| " (k - 1) ++ "|\\") := by
  have h := asciiSplitGo_spec k 0 hk
  simpa [asciiSplit] using h

/-- C10 witness: concrete instance of `ascii_split_lines` at `k = 3`. -/
theorem ascii_split_lines_witness :
    (asciiSplit 3).length = 2 * 3 - 1 ∧
    (asciiSplit 3).getLast? = some (srep "| " (3 - 1) ++ "|\\") :=
  ascii_split_lines 3 (by decide)

theorem pyIndex_eq_none (a : String) :
    ∀ l : List String, a ∉ l → pyIndex a l = none
  | [], _ => rfl
  | c :: l, h => by
    have hca : ¬ c = a := fun hh => h (hh ▸ List.mem_cons_self c l)
    have ih := pyIndex_eq_none a l (fun hh => h (List.mem_cons_of_mem c hh))
    simp only [pyIndex, firstIdxP] at ih ⊢
    simp [hca, ih]

theorem filter_singleton_of_unique (p : String → Bool) :
    ∀ (l : List String) (a : String), l.Nodup → a ∈ l →
      (∀ x ∈ l, (p x = true ↔ x = a)) → l.filter p = [a]
  | [], a, _, ha, _ => absurd ha (List.not_mem_nil a)
  | x :: l, a, hnd, ha, hp => by
    obtain ⟨hxl, hndl⟩ := List.nodup_cons.mp hnd
    by_cases hxa : x = a
    · subst hxa
      have hpx : p x = true := (hp x (List.mem_cons_self x l)).mpr rfl
      have hfl : l.filter p = [] := by
        refine List.filter_eq_nil_iff.mpr fun b hb hpb => ?_
        exact hxl (((hp b (List.mem_cons_of_mem x hb)).mp hpb) ▸ hb)
      simp [List.filter_cons, hpx, hfl]
    · have hal : a ∈ l := by
        rcases List.mem_cons.mp ha with h | h
        · exact absurd h.symm hxa
        · exact h
      have hpx : p x = false := by
        by_contra hpx
        exact hxa ((hp x (List.mem_cons_self x l)).mp
          (by revert hpx; cases p x <;> simp))
      have ih := filter_singleton_of_unique p l a hndl hal
        (fun y hy => hp y (List.mem_cons_of_mem x hy))
      simp [List.filter_cons, hpx, ih]

/-- Under the unique-decreasing-label hypothesis the counter difference has
exactly one key. -/
theorem counterKeys_singleton (start finish : List String) (merged : String)
    (hmem : merged ∈ start)
    (hm : ∀ k ∈ start, ((finish.count k < start.count k) ↔ k = merged)) :
    counterKeys start finish = [merged] := by
  refine filter_singleton_of_unique _ start.dedup merged start.nodup_dedup
    (List.mem_dedup.mpr hmem) ?_
  intro x hx
  simp only [decide_eq_true_eq]
  exact hm x (List.mem_dedup.mp hx)

/-- C9 counterexample: for a two-parent merge of adjacent rails
(`before = 0`, `after = 0`, gap width 0) the emitted art is exactly four
lines, never two or fewer. -/
theorem adjacent_merge_four_lines_cex :
    asciiMerge ["m", "m"] ["m"] = Except.ok ["|  \\", "| _/", "|/", "|"] ∧
    ¬ (["|  \\", "| _/", "|/", "|"] : List String).length ≤ 2 := by
  exact ⟨rfl, by decide⟩

/-- C9 (amended): for a two-parent merge whose parent rails are adjacent
(left padding 0, right padding 0, gap width 0 — before/after sequences
`[m, m]` and `[m]`), `ascii_merge` emits the full fixed four-line crossover
shape; there is no collapsed two-line special case (it is left as a TODO in
the code). -/
theorem adjacent_merge_art (m : String) :
    asciiMerge [m, m] [m] = Except.ok ["|  \\", "| _/", "|/", "|"] := by
  have h1 : counterKeys [m, m] [m] = [m] :=
    counterKeys_singleton [m, m] [m] m (List.mem_cons_self m [m])
      (by intro k hk; rcases List.mem_cons.mp hk with rfl | hk
          · simp [List.count_cons]
          · rcases List.mem_singleton.mp hk with rfl
            simp [List.count_cons])
  have h2 : pyIndex m [m] = some 0 := by simp [pyIndex, firstIdxP]
  have h3 : pyIndex m [m, m] = some 0 := by simp [pyIndex, firstIdxP]
  simp only [asciiMerge, h1, h2, h3, List.length_cons, List.length_nil]
  norm_num
  rw [h2]
  rfl

/-- C3: under the stated hypotheses — one extra rail in `start`, a unique
label `merged` whose count decreases, whose first position `dest` agrees in
`start` and `finish`, and which reoccurs `j + 1` rails later in `start` —
`ascii_merge` returns exactly the four crossover lines for gap width
`origin - dest - 1`, left-padded by `dest` straight rails, right-padded by
`len(start) - origin - 1` diagonal rails, each right-trimmed. -/
theorem ascii_merge_shape (start finish : List String) (merged : String)
    (dest j : Nat)
    (hlen : start.length = finish.length + 1)
    (hm : ∀ k ∈ start, ((finish.count k < start.count k) ↔ k = merged))
    (hdest : pyIndex merged finish = some dest)
    (hds : pyIndex merged start = some dest)
    (horig : pyIndex merged (start.drop (dest + 1)) = some j) :
    asciiMerge start finish
      = Except.ok
          ((List.zip (asciiCrossover ((dest + j + 1) - dest - 1))
              [srep " \\" (start.length - (dest + j + 1) - 1),
               srep " /" (start.length - (dest + j + 1) - 1),
               srep "/ " (start.length - (dest + j + 1) - 1),
               srep "/ " (start.length - (dest + j + 1) - 1)]).map
            (fun pr => rstrip (srep "| " dest ++ pr.1 ++ pr.2))) := by
  have hmem : merged ∈ start := by
    by_contra h
    rw [pyIndex_eq_none merged start h] at hds
    cases hds
  rw [show asciiMerge start finish
      = Except.ok
          [rstrip (srep "| " dest
              ++ ("| " ++ srep "| " ((dest + j + 1) - dest - 1) ++ " \\")
              ++ srep " \\" (start.length - (dest + j + 1) - 1)),
           rstrip (srep "| " dest
              ++ ("| " ++ srep "|_" ((dest + j + 1) - dest - 1) ++ "_/")
              ++ srep " /" (start.length - (dest + j + 1) - 1)),
           rstrip (srep "| " dest
              ++ ("|/" ++ srep "| " ((dest + j + 1) - dest - 1) ++ "  ")
              ++ srep "/ " (start.length - (dest + j + 1) - 1)),
           rstrip (srep "| " dest
              ++ ("| " ++ srep "| " ((dest + j + 1) - dest - 1) ++ " ")
              ++ srep "/ " (start.length - (dest + j + 1) - 1))] from ?_]
  · rfl
  · simp only [asciiMerge, counterKeys_singleton start finish merged hmem hm,
      hdest, hds, horig, if_pos hlen, asciiCrossover]
    simp

/-- C3 witness: concrete instance of `ascii_merge_shape` on the doctest
example `ascii_merge([1, 2, 1], [1, 2])`. -/
theorem ascii_merge_shape_witness :
    asciiMerge ["1", "2", "1"] ["1", "2"]
      = Except.ok
          ((List.zip (asciiCrossover ((0 + 1 + 1) - 0 - 1))
              [srep " \\" ((["1", "2", "1"] : List String).length - (0 + 1 + 1) - 1),
               srep " /" ((["1", "2", "1"] : List String).length - (0 + 1 + 1) - 1),
               srep "/ " ((["1", "2", "1"] : List String).length - (0 + 1 + 1) - 1),
               srep "/ " ((["1", "2", "1"] : List String).length - (0 + 1 + 1) - 1)]).map
            (fun pr => rstrip (srep "| " 0 ++ pr.1 ++ pr.2))) :=
  ascii_merge_shape ["1", "2", "1"] ["1", "2"] "1" 0 1 (by decide) (by decide)
    (by decide) (by decide) (by decide)

/-! ### Claim theorems: `print_row` and `print_lines` -/

theorem merge_ok_spec (columns parents : List String) (name : String)
    (hnd : parents.Nodup) (hne : parents ≠ [])
    (hall : ∀ p ∈ parents, p ∈ columns) :
    merge columns parents name
        = Except.ok (mergeSimpleR name columns parents) ∧
    (mergeSimpleR name columns parents).length
        = columns.length - parents.length + 1 := by
  have hperm := (consumedSeq_perm_iff columns parents hnd).mpr hall
  have hhit : ∃ c ∈ columns, c ∈ parents := by
    obtain ⟨p, hp⟩ := List.exists_mem_of_ne_nil parents hne
    exact ⟨p, hall p hp, hp⟩
  have hlen := mergeSimpleR_length name columns parents hhit
  have hple : parents.length ≤ columns.length :=
    (hnd.subperm (fun p hp => hall p hp)).length_le
  have hclen := hperm.length_eq
  rw [merge_eq_reference columns parents name hnd hne, if_pos hperm]
  exact ⟨rfl, by omega⟩

theorem preMergeGo_length (ps : List String) :
    ∀ (cs pm : List String), (preMergeGo ps cs pm).length = cs.length
  | [], _ => rfl
  | c :: cs, pm => by
    by_cases h : c ∈ ps ∧ c ∉ pm
    · simp [preMergeGo, h, preMergeGo_length ps cs (pm ++ [c])]
    · simp [preMergeGo, h, preMergeGo_length ps cs pm]

theorem preMerge_length (ps cols : List String) :
    (preMerge ps cols).length = cols.length :=
  preMergeGo_length ps cols []

theorem postMerge_length (cols new : List String) :
    (postMerge cols new).length = new.length := by
  simp [postMerge]

theorem asciiMerge_arity (start finish : List String)
    (h : ¬ start.length = finish.length + 1) :
    asciiMerge start finish = Except.error GitErr.unsupportedMergeArity := by
  simp only [asciiMerge, if_neg h]

/-- C6: a commit with three or more parents (on distinct rails all present)
fails with `UnsupportedMergeArity` — the `ascii_merge` arity assertion
`len(start) - 1 == len(finish)` cannot hold — and `print_row` emits no output
line at all for that row. -/
theorem three_parent_row_fails (commit : String)
    (children : List (String × List String)) (cols : List String)
    (msg : Option String)
    (h3 : 3 ≤ (parentsOf commit children).length)
    (hnd : (parentsOf commit children).Nodup)
    (hall : ∀ p ∈ parentsOf commit children, p ∈ cols) :
    printRow commit children (some cols) msg
      = ([], Except.error GitErr.unsupportedMergeArity) := by
  have hne : parentsOf commit children ≠ [] := by
    intro h
    rw [h] at h3
    simp at h3
  obtain ⟨hok, hlen⟩ :=
    merge_ok_spec cols (parentsOf commit children) commit hnd hne hall
  have hple : (parentsOf commit children).length ≤ cols.length :=
    (hnd.subperm (fun p hp => hall p hp)).length_le
  have hres : mergeResolve cols (parentsOf commit children) commit
      = Except.ok (mergeSimpleR commit cols (parentsOf commit children)) := by
    unfold mergeResolve
    rw [if_neg (by omega)]
    exact hok
  have h1 : 1 < (parentsOf commit children).length := by omega
  have hart : asciiMerge (preMerge (parentsOf commit children) cols)
      (postMerge cols (mergeSimpleR commit cols (parentsOf commit children)))
      = Except.error GitErr.unsupportedMergeArity := by
    apply asciiMerge_arity
    rw [preMerge_length, postMerge_length, hlen]
    omega
  simp [printRow, hres, hart, h1]

/-- C6 witness: concrete instance of `three_parent_row_fails`. -/
theorem three_parent_row_fails_witness :
    printRow "m" [("p1", ["m"]), ("p2", ["m"]), ("p3", ["m"])]
        (some ["p1", "p2", "p3"]) none
      = ([], Except.error GitErr.unsupportedMergeArity) :=
  three_parent_row_fails "m" [("p1", ["m"]), ("p2", ["m"]), ("p3", ["m"])]
    ["p1", "p2", "p3"] none (by decide) (by decide) (by decide)

/-- C7 counterexample: the first commit's transition does not apply branch
expansion — a first commit with two children leaves the rail state at
`["A"]`, not at the expanded `branch` result `["A", "A"]`. -/
theorem first_commit_no_expand_cex :
    printRow "A" [("A", ["B", "C"])] none none
      = ([formatLine "A" ["A"] none], Except.ok ["A"]) ∧
    branch ["A"] (childLookup [("A", ["B", "C"])] "A") "A" = ["A", "A"] ∧
    (["A"] : List String) ≠ ["A", "A"] :=
  ⟨rfl, rfl, by decide⟩

/-- C7 (amended): the first commit only seeds the rail state to the length-1
sequence `[commit]` and formats its row — neither merge resolution nor branch
expansion is applied to it; every subsequent commit's transition applies merge
resolution, then row formatting, then branch expansion. -/
theorem railstate_transition (commit : String)
    (children : List (String × List String)) (cols : List String)
    (msg : Option String) (lines : List String) (newer : List String)
    (h : printRow commit children (some cols) msg
        = (lines, Except.ok newer)) :
    (∀ (c : String) (ch : List (String × List String)) (m : Option String),
        printRow c ch none m = ([formatLine c [c] m], Except.ok [c])) ∧
    (∀ (first : String) (rest : List String) (msgs : List (String × String)),
        printLines (first :: rest) children msgs
          = (formatLine first [first] (msgLookup msgs first)
                :: (printLinesGo children msgs [first] rest).1,
             (printLinesGo children msgs [first] rest).2)) ∧
    ∃ new art1 art2,
      mergeResolve cols (parentsOf commit children) commit = Except.ok new ∧
      lines = art1 ++ formatLine commit new msg :: art2 ∧
      newer = branch new (childLookup children commit) commit := by
  refine ⟨fun c ch m => rfl,
    fun first rest msgs => by simp [printLines, printRow], ?_⟩
  simp only [printRow] at h
  split at h
  next e heq => simp at h
  next new heq =>
    split at h
    next e heq2 => simp at h
    next art heq2 =>
      split at h
      · split at h
        next e heq3 => simp at h
        next art2 heq3 =>
          rw [Prod.mk.injEq] at h
          obtain ⟨hl, hn⟩ := h
          injection hn with hn
          exact ⟨new, art, art2, heq, hl.symm, hn.symm⟩
      · rw [Prod.mk.injEq] at h
        obtain ⟨hl, hn⟩ := h
        injection hn with hn
        refine ⟨new, art, [], heq, ?_, hn.symm⟩
        rw [← hl]

/-- C7 witness: concrete instance of `railstate_transition` on a linear
two-commit history. -/
theorem railstate_transition_witness :
    (∀ (c : String) (ch : List (String × List String)) (m : Option String),
        printRow c ch none m = ([formatLine c [c] m], Except.ok [c])) ∧
    (∀ (first : String) (rest : List String) (msgs : List (String × String)),
        printLines (first :: rest) [("A", ["B"])] msgs
          = (formatLine first [first] (msgLookup msgs first)
                :: (printLinesGo [("A", ["B"])] msgs [first] rest).1,
             (printLinesGo [("A", ["B"])] msgs [first] rest).2)) ∧
    ∃ new art1 art2,
      mergeResolve ["A"] (parentsOf "B" [("A", ["B"])]) "B" = Except.ok new ∧
      ["o   B"] = art1 ++ formatLine "B" new none :: art2 ∧
      ([] : List String) = branch new (childLookup [("A", ["B"])] "B") "B" :=
  railstate_transition "B" [("A", ["B"])] ["A"] none ["o   B"] [] rfl

end GitGraph
